import Mathlib

/-!
Verification of the MUFAP financial-report ingestion and query pipeline.

The definitions below are a shallow embedding of the Python sources:
`process_financial_data.py` (header location, format classification,
metadata cache, schema unification and loading), `app.py` (display-column
resolution, query counts, sort resolution, file download) and
`viewer_app.py` (download).  Machine-level details of the runtime are
modelled explicitly: Python `str.title`/`str.strip`/`str.lower` are
re-implemented over ASCII, text encodings are modelled at the byte level,
and SQL `LIKE` is modelled by a wildcard matcher.
-/

namespace Mufap

/-- A value stored in a data-frame cell or a database cell.  The integer,
string and null cases are kept distinct because the spec claims the
missing-data backfill is the integer `0`, not null and not `""`. -/
inductive Value where
  | vInt (n : Int)
  | vStr (s : String)
  | vNull
deriving DecidableEq, Repr

/-- A pandas `DataFrame` as used by the ingestion script: a list of column
names plus rows of cell values (each row aligned with `cols`). -/
structure Frame where
  cols : List String
  rows : List (List Value)
deriving DecidableEq, Repr

/-- Python `str.lower` (ASCII model). -/
def strLower (s : String) : String := String.mk (s.data.map Char.toLower)

/-- Python `str.strip` (ASCII-whitespace model). -/
def pyStrip (s : String) : String :=
  String.mk (((s.data.dropWhile Char.isWhitespace).reverse.dropWhile Char.isWhitespace).reverse)

/-- An ASCII letter (the cased characters of this model). -/
def asciiAlpha (c : Char) : Bool :=
  (65 ≤ c.toNat && c.toNat ≤ 90) || (97 ≤ c.toNat && c.toNat ≤ 122)

/-- Python `str.title` on a character list: a cased character is
uppercased after a non-cased (or initial) position and lowercased after
a cased one.  `prevAlpha` records whether the previous character was
cased. -/
def pyTitleAux : Bool → List Char → List Char
  | _, [] => []
  | prevAlpha, c :: t =>
    (if asciiAlpha c then (if prevAlpha then c.toLower else c.toUpper) else c) ::
      pyTitleAux (asciiAlpha c) t

/-- Python `str.title` (ASCII model). -/
def pyTitle (s : String) : String := String.mk (pyTitleAux false s.data)

/-- The column-name canonicalization applied throughout the ingestion
script: `str(col).strip().title()`. -/
def normCol (c : String) : String := pyTitle (pyStrip c)

/-- Lexicographic (codepoint) comparison of character lists; this is how
Python compares and sorts strings. -/
def lexLe : List Char → List Char → Bool
  | [], _ => true
  | _ :: _, [] => false
  | a :: as, b :: bs =>
    if a.toNat < b.toNat then true else if b.toNat < a.toNat then false else lexLe as bs

/-- Lexicographic string comparison (Python `<=` on `str`). -/
def strLe (a b : String) : Bool := lexLe a.data b.data

theorem lexLe_total (a b : List Char) : lexLe a b = true ∨ lexLe b a = true := by
  induction a generalizing b with
  | nil => left; rfl
  | cons x xs ih =>
    cases b with
    | nil => right; rfl
    | cons y ys =>
      simp only [lexLe]
      rcases Nat.lt_trichotomy x.toNat y.toNat with h | h | h
      · left; simp [h]
      · have hn : ¬ x.toNat < y.toNat := by omega
        have hn2 : ¬ y.toNat < x.toNat := by omega
        rcases ih ys with h2 | h2
        · left; simp [hn, hn2, h2]
        · right; simp [hn, hn2, h2]
      · right; simp [h, Nat.lt_asymm h]

theorem lexLe_trans (a b c : List Char) (h1 : lexLe a b = true) (h2 : lexLe b c = true) :
    lexLe a c = true := by
  induction a generalizing b c with
  | nil => rfl
  | cons x xs ih =>
    cases b with
    | nil => simp [lexLe] at h1
    | cons y ys =>
      cases c with
      | nil => simp [lexLe] at h2
      | cons z zs =>
        simp only [lexLe] at h1 h2 ⊢
        by_cases hxy : x.toNat < y.toNat
        · by_cases hyz : y.toNat < z.toNat
          · simp [show x.toNat < z.toNat from by omega]
          · by_cases hzy : z.toNat < y.toNat
            · simp [hyz, hzy] at h2
            · simp [show x.toNat < z.toNat from by omega]
        · by_cases hyx : y.toNat < x.toNat
          · simp [hxy, hyx] at h1
          · have hxy2 : x.toNat = y.toNat := by omega
            simp [hxy, hyx] at h1
            by_cases hyz : y.toNat < z.toNat
            · simp [show x.toNat < z.toNat from by omega]
            · by_cases hzy : z.toNat < y.toNat
              · simp [hyz, hzy] at h2
              · have hn1 : ¬ x.toNat < z.toNat := by omega
                have hn2 : ¬ z.toNat < x.toNat := by omega
                simp [hyz, hzy] at h2
                simp [hn1, hn2]
                exact ih ys zs h1 h2

instance : IsTotal String (fun a b => strLe a b = true) :=
  ⟨fun a b => lexLe_total a.data b.data⟩

instance : IsTrans String (fun a b => strLe a b = true) :=
  ⟨fun a b c => lexLe_trans a.data b.data c.data⟩

/-! ## Format fingerprints and the classifier
(`process_financial_data.py`, configuration and `find_header_and_type`). -/

/-- The two record formats the pipeline recognises. -/
inductive FormatId where
  | PKRV
  | PKFRV
deriving DecidableEq, Repr

/-- `PKFRV_CORE_COLUMNS` from `process_financial_data.py`. -/
def PKFRV_CORE_COLUMNS : List String := ["Issue Date", "Maturity date", "Coupon Frequency"]

/-- `PKRV_EXACT_COLUMNS` from `process_financial_data.py`. -/
def PKRV_EXACT_COLUMNS : List String := ["Tenor", "Mid Rate", "Change"]

/-- `{col.title() for col in PKFRV_CORE_COLUMNS}`. -/
def pkfrvCoreTitlecase : List String := PKFRV_CORE_COLUMNS.map pyTitle

/-- `{col.title() for col in PKRV_EXACT_COLUMNS}`. -/
def pkrvExactTitlecase : List String := PKRV_EXACT_COLUMNS.map pyTitle

/-- Python-set containment of one token list in another. -/
def subSet (a b : List String) : Prop := ∀ x ∈ a, x ∈ b

instance (a b : List String) : Decidable (subSet a b) := List.decidableBAll _ a

/-- Python-set equality of two token lists (same members). -/
def eqSet (a b : List String) : Prop := subSet a b ∧ subSet b a

instance (a b : List String) : Decidable (eqSet a b) := by
  unfold eqSet; infer_instance

/-- The normalized token set of a candidate header row:
`{str(col).strip().title() for col in row.dropna()}` — empty cells are
what `dropna` removes after CSV parsing. -/
def rowTokens (row : List String) : List String :=
  (row.filter (fun c => c ≠ "")).map normCol

/-- The per-row format test of `find_header_and_type` (lines 106–109):
the PKRV exact-equality fingerprint is tried first, then the PKFRV
subset fingerprint; the first match wins. -/
def classifyTokens (tokens : List String) : Option FormatId :=
  if eqSet tokens pkrvExactTitlecase then some FormatId.PKRV
  else if subSet pkfrvCoreTitlecase tokens then some FormatId.PKFRV
  else none

/-- `MAX_HEADER_SCAN_ROWS` from `process_financial_data.py`. -/
def MAX_HEADER_SCAN_ROWS : Nat := 15

/-- The scan loop of `find_header_and_type`: first row whose normalized
token set matches a fingerprint, together with its index. -/
def findHeaderAux : Nat → List (List String) → Option (Nat × FormatId)
  | _, [] => none
  | i, r :: t =>
    match classifyTokens (rowTokens r) with
    | some f => some (i, f)
    | none => findHeaderAux (i + 1) t

/-- `find_header_and_type` on an already-parsed preview: pandas reads at
most `MAX_HEADER_SCAN_ROWS` rows (`nrows=...`), then the rows are scanned
in order. -/
def find_header_and_type (rows : List (List String)) : Option (Nat × FormatId) :=
  findHeaderAux 0 (rows.take MAX_HEADER_SCAN_ROWS)

/-- C6: the Format Classifier checks the EXACT fingerprint (token set
equal, as a set, to the title-cased `{Tenor, Mid Rate, Change}`) before
the SUBSET fingerprint (title-cased PKFRV core set contained in the
tokens), returns the first match, and is invariant under set-equality of
the token list, hence deterministic on normalized token sets. -/
theorem classifier_priority_and_deterministic :
    (∀ t, eqSet t pkrvExactTitlecase → classifyTokens t = some FormatId.PKRV) ∧
    (∀ t, ¬ eqSet t pkrvExactTitlecase → subSet pkfrvCoreTitlecase t →
      classifyTokens t = some FormatId.PKFRV) ∧
    (∀ s t, eqSet s t → classifyTokens s = classifyTokens t) := by
  refine ⟨fun t ht => ?_, fun t ht hsub => ?_, fun s t hst => ?_⟩
  · simp [classifyTokens, ht]
  · simp [classifyTokens, ht, hsub]
  · have hm : ∀ x, x ∈ s ↔ x ∈ t := fun x => ⟨fun h => hst.1 x h, fun h => hst.2 x h⟩
    have h1 : eqSet s pkrvExactTitlecase ↔ eqSet t pkrvExactTitlecase := by
      constructor
      · rintro ⟨ha, hb⟩
        exact ⟨fun x hx => ha x ((hm x).mpr hx), fun x hx => (hm x).mp (hb x hx)⟩
      · rintro ⟨ha, hb⟩
        exact ⟨fun x hx => ha x ((hm x).mp hx), fun x hx => (hm x).mpr (hb x hx)⟩
    have h2 : subSet pkfrvCoreTitlecase s ↔ subSet pkfrvCoreTitlecase t :=
      ⟨fun h x hx => (hm x).mp (h x hx), fun h x hx => (hm x).mpr (h x hx)⟩
    unfold classifyTokens
    rw [if_congr h1 rfl (if_congr h2 rfl rfl)]

/-- Witness for `classifier_priority_and_deterministic` at concrete token
sets: a permuted exact PKRV header, a PKFRV superset header, and two
set-equal token lists. -/
theorem classifier_priority_and_deterministic_witness :
    classifyTokens ["Mid Rate", "Change", "Tenor"] = some FormatId.PKRV ∧
    classifyTokens ["Issue Date", "Maturity Date", "Coupon Frequency", "Extra"] =
      some FormatId.PKFRV ∧
    classifyTokens ["Tenor", "Tenor"] = classifyTokens ["Tenor"] :=
  ⟨classifier_priority_and_deterministic.1 _ (by decide),
   classifier_priority_and_deterministic.2.1 _ (by decide) (by decide),
   classifier_priority_and_deterministic.2.2 _ _ (by decide)⟩

/-! ## Byte-level model of text encodings and CSV parsing
(the file-reading step of `find_header_and_type`: `pd.read_csv(filepath,
header=None, nrows=MAX_HEADER_SCAN_ROWS, sep=None, engine='python')`,
which decodes the file with the single default encoding UTF-8). -/

/-- Join character lists with a separator character. -/
def joinWith (sep : Char) : List (List Char) → List Char
  | [] => []
  | [x] => x
  | x :: y :: t => x ++ sep :: joinWith sep (y :: t)

/-- Split a character list at a separator character. -/
def splitWith (sep : Char) : List Char → List (List Char)
  | [] => [[]]
  | c :: t =>
    match splitWith sep t with
    | [] => [[]]
    | h :: rt => if c = sep then [] :: h :: rt else (c :: h) :: rt

/-- The supported text encodings of the spec's preference list. -/
inductive Encoding where
  | utf8
  | latin1
  | cp1252
deriving DecidableEq, Repr

/-- UTF-8 encoding of a single character. -/
def encodeCharUtf8 (c : Char) : List Nat :=
  let n := c.toNat
  if n < 0x80 then [n]
  else if n < 0x800 then [0xC0 + n / 64, 0x80 + n % 64]
  else if n < 0x10000 then [0xE0 + n / 4096, 0x80 + (n / 64) % 64, 0x80 + n % 64]
  else [0xF0 + n / 262144, 0x80 + (n / 4096) % 64, 0x80 + (n / 64) % 64, 0x80 + n % 64]

/-- Encoding of one character under each supported encoding; `none` when
the codec cannot represent the character.  latin1 maps codepoints below
256 to a single identical byte.  cp1252 is modelled on the subset where
it coincides with latin1 (ASCII and 0xA0–0xFF); the 27 remapped
characters such as the euro sign are outside the model and yield `none`,
as do the C1 codepoints 0x80–0x9F, which real cp1252 also rejects. -/
def encodeChar : Encoding → Char → Option (List Nat)
  | Encoding.utf8, c => some (encodeCharUtf8 c)
  | Encoding.latin1, c => if c.toNat < 0x100 then some [c.toNat] else none
  | Encoding.cp1252, c =>
    if c.toNat < 0x80 ∨ (0xA0 ≤ c.toNat ∧ c.toNat < 0x100) then some [c.toNat] else none

/-- Encode a character list, failing if any character is unencodable. -/
def encodeChars (e : Encoding) : List Char → Option (List Nat)
  | [] => some []
  | c :: t =>
    match encodeChar e c, encodeChars e t with
    | some b, some rest => some (b ++ rest)
    | _, _ => none

/-- Fuelled strict UTF-8 decoder (Python's `utf-8` codec): rejects
stray continuation bytes, overlong forms, surrogates and codepoints
above 0x10FFFF.  Each step consumes at least one byte, so fuel larger
than the byte count always suffices. -/
def decodeUtf8F : Nat → List Nat → Option (List Char)
  | 0, _ => none
  | _ + 1, [] => some []
  | fuel + 1, b :: rest =>
    if b < 0x80 then
      match decodeUtf8F fuel rest with
      | some cs => some (Char.ofNat b :: cs)
      | none => none
    else if b < 0xC2 then none
    else if b < 0xE0 then
      match rest with
      | b2 :: rest2 =>
        if 0x80 ≤ b2 ∧ b2 < 0xC0 then
          match decodeUtf8F fuel rest2 with
          | some cs => some (Char.ofNat ((b - 0xC0) * 64 + (b2 - 0x80)) :: cs)
          | none => none
        else none
      | [] => none
    else if b < 0xF0 then
      match rest with
      | b2 :: b3 :: rest3 =>
        if (0x80 ≤ b2 ∧ b2 < 0xC0) ∧ (0x80 ≤ b3 ∧ b3 < 0xC0) then
          let n := (b - 0xE0) * 4096 + (b2 - 0x80) * 64 + (b3 - 0x80)
          if n < 0x800 ∨ (0xD800 ≤ n ∧ n < 0xE000) then none
          else
            match decodeUtf8F fuel rest3 with
            | some cs => some (Char.ofNat n :: cs)
            | none => none
        else none
      | _ => none
    else if b < 0xF5 then
      match rest with
      | b2 :: b3 :: b4 :: rest4 =>
        if (0x80 ≤ b2 ∧ b2 < 0xC0) ∧ (0x80 ≤ b3 ∧ b3 < 0xC0) ∧ (0x80 ≤ b4 ∧ b4 < 0xC0) then
          let n := (b - 0xF0) * 262144 + (b2 - 0x80) * 4096 + (b3 - 0x80) * 64 + (b4 - 0x80)
          if n < 0x10000 ∨ 0x110000 ≤ n then none
          else
            match decodeUtf8F fuel rest4 with
            | some cs => some (Char.ofNat n :: cs)
            | none => none
        else none
      | _ => none
    else none

/-- UTF-8 decoding of a byte list. -/
def decodeUtf8 (bytes : List Nat) : Option (List Char) :=
  decodeUtf8F (bytes.length + 1) bytes

/-- Serialize CSV content (rows of cells) to its character stream. -/
def serializeCsv (content : List (List String)) : List Char :=
  joinWith '\n' (content.map (fun row => joinWith ',' (row.map String.data)))

/-- `csv.Sniffer.preferred`, the tie-break order of the delimiter
sniffer: `[',', '\t', ';', ' ', ':']`. -/
def PREFERRED_DELIMITERS : List Char := [',', '\t', ';', ' ', ':']

/-- The delimiter inference of `pd.read_csv(..., sep=None,
engine='python')`: pandas feeds the FIRST line of the file to
`csv.Sniffer().sniff`.  With no quoted fields the sniffer falls through
to frequency analysis; over a single line every character that occurs is
a fully consistent candidate, and the preferred-order tie-break then
returns the first of `[',', '\t', ';', ' ', ':']` that occurs in the
line.  When none of the preferred characters occurs, the real sniffer
falls back to whichever character dominates (or raises) — those files
are outside this model's domain and are mapped to `none`. -/
def sniffDelimiter (line : List Char) : Option Char :=
  PREFERRED_DELIMITERS.find? (fun d => decide (d ∈ line))

/-- `skip_blank_lines=True` of the pandas python engine
(`_remove_empty_lines`): a parsed line is kept iff it has more than one
field or its single field is non-blank. -/
def keepLine : List (List Char) → Bool
  | [f] => !(f.dropWhile Char.isWhitespace).isEmpty
  | _ => true

/-- Parse a character stream with delimiter `delim`, dropping blank
lines, as the pandas python engine does. -/
def parseCsvWith (delim : Char) (cs : List Char) : List (List String) :=
  (((splitWith '\n' cs).map (fun line => splitWith delim line)).filter keepLine).map
    (fun r => r.map String.mk)

/-- The full read of `pd.read_csv(..., header=None, sep=None,
engine='python')` on decoded text: sniff the delimiter from the first
line, then parse every line with it, dropping blank lines. -/
def readCsvRows (cs : List Char) : Option (List (List String)) :=
  match sniffDelimiter ((splitWith '\n' cs).headD []) with
  | none => none
  | some d => some (parseCsvWith d cs)

/-- The Header Locator and Format Classifier applied to a raw file: the
logical content is serialized, saved under encoding `e`, then
`find_header_and_type` reads it back with pandas' single default UTF-8
decode (there is no per-encoding retry loop in
`process_financial_data.py`) and a delimiter sniffed from the first
line; a decode or sniff failure is caught by the `except` clause and
yields `(None, None)`. -/
def locateAndClassify (e : Encoding) (content : List (List String)) :
    Option (Nat × FormatId) :=
  match encodeChars e (serializeCsv content) with
  | none => none
  | some bytes =>
    match decodeUtf8 bytes with
    | none => none
    | some cs =>
      match readCsvRows cs with
      | none => none
      | some rows => find_header_and_type rows

/-- CSV content that serializes unambiguously and parses back to itself:
nonempty; no row is empty or a blank line (a single cell that strips to
nothing — the reader would drop it and shift every later row index); no
cell contains a delimiter comma, a line break, a quote (which would
engage the sniffer's quote heuristics) or a leading space (which
`skipinitialspace` could strip after a delimiter). -/
def wellFormedCsv (content : List (List String)) : Prop :=
  content ≠ [] ∧ ∀ row ∈ content, row ≠ [] ∧
    (row.length = 1 → pyStrip (row.getD 0 "") ≠ "") ∧
    ∀ cell ∈ row, ',' ∉ cell.data ∧ '\n' ∉ cell.data ∧ '\r' ∉ cell.data ∧
      '"' ∉ cell.data ∧ cell.data.head? ≠ some ' '

/-- All cell characters are ASCII. -/
def contentAscii (content : List (List String)) : Prop :=
  ∀ row ∈ content, ∀ cell ∈ row, ∀ c ∈ cell.data, c.toNat < 0x80

/-- The file's true header row is at index `k` (inside the scan window)
and matches fingerprint `F`; no earlier row matches any fingerprint. -/
def headerSpecAt (content : List (List String)) (k : Nat) (F : FormatId) : Prop :=
  k < MAX_HEADER_SCAN_ROWS ∧ k < content.length ∧
  classifyTokens (rowTokens (content.getD k [])) = some F ∧
  ∀ i, i < k → classifyTokens (rowTokens (content.getD i [])) = none

instance (content : List (List String)) (k : Nat) (F : FormatId) :
    Decidable (headerSpecAt content k F) := by
  unfold headerSpecAt; infer_instance

instance (content : List (List String)) : Decidable (wellFormedCsv content) := by
  unfold wellFormedCsv; infer_instance

instance (content : List (List String)) : Decidable (contentAscii content) := by
  unfold contentAscii; infer_instance

theorem splitWith_ne_nil (sep : Char) (l : List Char) : splitWith sep l ≠ [] := by
  induction l with
  | nil => simp [splitWith]
  | cons c t ih =>
    simp only [splitWith]
    cases h : splitWith sep t with
    | nil => exact absurd h ih
    | cons hd rt => by_cases hc : c = sep <;> simp [hc]

theorem splitWith_no_sep (sep : Char) (x : List Char) (h : sep ∉ x) : splitWith sep x = [x] := by
  induction x with
  | nil => rfl
  | cons c t ih =>
    have hc : c ≠ sep := fun he => h (he ▸ List.mem_cons_self c t)
    have ht : sep ∉ t := fun hm => h (List.mem_cons_of_mem _ hm)
    simp [splitWith, ih ht, hc]

theorem splitWith_append_sep (sep : Char) (x l : List Char) (h : sep ∉ x) :
    splitWith sep (x ++ sep :: l) = x :: splitWith sep l := by
  induction x with
  | nil =>
    simp only [List.nil_append, splitWith]
    cases h2 : splitWith sep l with
    | nil => exact absurd h2 (splitWith_ne_nil _ _)
    | cons hd rt => simp
  | cons c t ih =>
    have hc : c ≠ sep := fun he => h (he ▸ List.mem_cons_self c t)
    have ht : sep ∉ t := fun hm => h (List.mem_cons_of_mem _ hm)
    simp [splitWith, ih ht, hc]

theorem splitWith_joinWith (sep : Char) (pieces : List (List Char)) (hne : pieces ≠ [])
    (h : ∀ p ∈ pieces, sep ∉ p) : splitWith sep (joinWith sep pieces) = pieces := by
  induction pieces with
  | nil => exact absurd rfl hne
  | cons x rest ih =>
    cases rest with
    | nil => exact splitWith_no_sep sep x (h x (List.mem_cons_self _ _))
    | cons y t =>
      show splitWith sep (x ++ sep :: joinWith sep (y :: t)) = _
      rw [splitWith_append_sep sep x _ (h x (List.mem_cons_self _ _))]
      rw [ih (by simp) (fun p hp => h p (List.mem_cons_of_mem _ hp))]

theorem mem_joinWith (sep : Char) (pieces : List (List Char)) (c : Char)
    (h : c ∈ joinWith sep pieces) : c = sep ∨ ∃ p ∈ pieces, c ∈ p := by
  induction pieces with
  | nil => simp [joinWith] at h
  | cons x rest ih =>
    cases rest with
    | nil => exact Or.inr ⟨x, List.mem_cons_self _ _, h⟩
    | cons y t =>
      rcases List.mem_append.mp h with hx | hrest
      · exact Or.inr ⟨x, List.mem_cons_self _ _, hx⟩
      · rcases List.mem_cons.mp hrest with hs | hj
        · exact Or.inl hs
        · rcases ih hj with hs | ⟨p, hp, hcp⟩
          · exact Or.inl hs
          · exact Or.inr ⟨p, List.mem_cons_of_mem _ hp, hcp⟩

theorem encodeChar_ascii (e : Encoding) (c : Char) (h : c.toNat < 0x80) :
    encodeChar e c = some [c.toNat] := by
  cases e with
  | utf8 => simp [encodeChar, encodeCharUtf8, h]
  | latin1 => simp [encodeChar, show c.toNat < 0x100 from by omega]
  | cp1252 => simp [encodeChar, Or.inl h]

theorem encodeChars_ascii (e : Encoding) (l : List Char) (h : ∀ c ∈ l, c.toNat < 0x80) :
    encodeChars e l = some (l.map Char.toNat) := by
  induction l with
  | nil => rfl
  | cons c t ih =>
    simp only [encodeChars, encodeChar_ascii e c (h c (List.mem_cons_self _ _)),
      ih (fun x hx => h x (List.mem_cons_of_mem _ hx)), List.map_cons,
      List.singleton_append]

theorem decodeUtf8F_ascii (fuel : Nat) (l : List Char) (hf : l.length < fuel)
    (h : ∀ c ∈ l, c.toNat < 0x80) : decodeUtf8F fuel (l.map Char.toNat) = some l := by
  induction fuel generalizing l with
  | zero => omega
  | succ fuel ih =>
    cases l with
    | nil => rfl
    | cons c t =>
      have hc : c.toNat < 0x80 := h c (List.mem_cons_self _ _)
      have ht : decodeUtf8F fuel (t.map Char.toNat) = some t :=
        ih t (by simpa using Nat.lt_of_succ_lt_succ hf) (fun x hx => h x (List.mem_cons_of_mem _ hx))
      simp [decodeUtf8F, hc, ht, Char.ofNat_toNat]

theorem decodeUtf8_ascii (l : List Char) (h : ∀ c ∈ l, c.toNat < 0x80) :
    decodeUtf8 (l.map Char.toNat) = some l := by
  unfold decodeUtf8
  rw [List.length_map]
  exact decodeUtf8F_ascii _ l (Nat.lt_succ_self _) h

theorem strMk_data (s : String) : String.mk s.data = s := by cases s; rfl

theorem getD_take (l : List (List String)) (n i : Nat) (d : List String) (h : i < n) :
    (l.take n).getD i d = l.getD i d := by
  simp [List.getD_eq_getElem?_getD, List.getElem?_take, h]

theorem findHeaderAux_spec (l : List (List String)) (base k : Nat) (F : FormatId)
    (hlen : k < l.length) (hk : classifyTokens (rowTokens (l.getD k [])) = some F)
    (hpre : ∀ i, i < k → classifyTokens (rowTokens (l.getD i [])) = none) :
    findHeaderAux base l = some (base + k, F) := by
  induction l generalizing base k with
  | nil => simp at hlen
  | cons r t ih =>
    cases k with
    | zero =>
      have hk2 : classifyTokens (rowTokens r) = some F := by simpa using hk
      simp [findHeaderAux, hk2]
    | succ k =>
      have h0 : classifyTokens (rowTokens r) = none := by
        have := hpre 0 (Nat.succ_pos k)
        simpa using this
      simp only [findHeaderAux, h0]
      have hlen2 : k < t.length := by simp at hlen; omega
      have := ih (base + 1) k hlen2
        (by simpa using hk) (fun i hi => by simpa using hpre (i + 1) (Nat.succ_lt_succ hi))
      have harith : base + 1 + k = base + (k + 1) := by omega
      rw [this, harith]

theorem find_header_of_spec (content : List (List String)) (k : Nat) (F : FormatId)
    (h : headerSpecAt content k F) : find_header_and_type content = some (k, F) := by
  obtain ⟨h15, hlen, hk, hpre⟩ := h
  have hlen' : k < (content.take MAX_HEADER_SCAN_ROWS).length := by
    simp [List.length_take]; omega
  have := findHeaderAux_spec (content.take MAX_HEADER_SCAN_ROWS) 0 k F hlen'
    (by rw [getD_take _ _ _ _ h15]; exact hk)
    (fun i hi => by
      rw [getD_take _ _ _ _ (by omega : i < MAX_HEADER_SCAN_ROWS)]
      exact hpre i hi)
  simpa [find_header_and_type] using this

theorem sep_mem_joinWith (sep : Char) (pieces : List (List Char)) (h : 2 ≤ pieces.length) :
    sep ∈ joinWith sep pieces := by
  cases pieces with
  | nil => simp at h
  | cons x rest =>
    cases rest with
    | nil => simp at h
    | cons y t =>
      show sep ∈ x ++ sep :: joinWith sep (y :: t)
      exact List.mem_append.mpr (Or.inr (List.mem_cons_self _ _))

theorem dropWhile_ne_nil_of_pyStrip (f : String) (h : pyStrip f ≠ "") :
    f.data.dropWhile Char.isWhitespace ≠ [] := by
  intro hd
  apply h
  unfold pyStrip
  rw [hd]
  rfl

theorem keepLine_of_wf (row : List String) (hne : row ≠ [])
    (hblank : row.length = 1 → pyStrip (row.getD 0 "") ≠ "") :
    keepLine (row.map String.data) = true := by
  cases row with
  | nil => exact absurd rfl hne
  | cons c rest =>
    cases rest with
    | nil =>
      have h1 : pyStrip c ≠ "" := by simpa using hblank (by simp)
      have h2 := dropWhile_ne_nil_of_pyStrip c h1
      show (!(c.data.dropWhile Char.isWhitespace).isEmpty) = true
      cases hdw : c.data.dropWhile Char.isWhitespace with
      | nil => exact absurd hdw h2
      | cons a t => rfl
    | cons c2 rest2 => rfl

/-- A file with a non-ASCII (latin1-encodable) character in a metadata
row above a PKRV header; the first row has two cells so the sniffer
selects the comma delimiter when the read succeeds. -/
def cexContent : List (List String) :=
  [["Résumé", "rates"], ["Tenor", "Mid Rate", "Change"], ["1Y", "10.5", "0.1"]]

/-- Witness for `header_locator_ascii_invariant`: a concrete ASCII file
with a two-cell metadata row above a PKRV header, saved as latin1. -/
def asciiHeaderContent : List (List String) :=
  [["PKRV rates", "as of 2024"], ["Tenor", "Mid Rate", "Change"], ["1Y", "10.1", "0.2"]]

/-- The running set union `all_pkfrv_columns.update(current_columns)`,
as a duplicate-free list in first-seen order. -/
def listUnion (acc : List String) (cols : List String) : List String :=
  cols.foldl (fun a c => if c ∈ a then a else a ++ [c]) acc

/-- The union of the column names of every staged PKFRV frame. -/
def all_pkfrv_columns (dfs : List Frame) : List String :=
  dfs.foldl (fun acc df => listUnion acc df.cols) []

/-- `sorted_columns = sorted(list(all_pkfrv_columns))` — the literal
column list of the freshly created `mutual_fund_data` table. -/
def sorted_columns (dfs : List Frame) : List String :=
  List.insertionSort (fun a b => strLe a b = true) (all_pkfrv_columns dfs)

/-- Value lookup by column name over a header/row pair (`df[col]` for one
row; first occurrence wins). -/
def lookupCR : List String → List Value → String → Option Value
  | [], _, _ => none
  | _ :: _, [], _ => none
  | c :: cs, v :: vs, k => if c = k then some v else lookupCR cs vs k

/-- The loader's backfill loop over one row:
`for col in sorted_columns: if col not in df.columns: df[col] = 0`. -/
def fillRow (cols : List String) (r : List Value) : List String → List String × List Value
  | [] => (cols, r)
  | col :: t =>
    if col ∈ cols then fillRow cols r t
    else fillRow (cols ++ [col]) (r ++ [Value.vInt 0]) t

/-- The per-row effect of the loader: backfill missing columns with `0`,
then select the unified columns in order (`df[sorted_columns]`). -/
def fillAndSelect (s : List String) (cols : List String) (r : List Value) : List Value :=
  s.map (fun c => (lookupCR (fillRow cols r s).1 (fillRow cols r s).2 c).getD Value.vNull)

theorem mem_listUnion (acc cols : List String) (x : String) :
    x ∈ listUnion acc cols ↔ x ∈ acc ∨ x ∈ cols := by
  induction cols generalizing acc with
  | nil => simp [listUnion]
  | cons c t ih =>
    show x ∈ listUnion (if c ∈ acc then acc else acc ++ [c]) t ↔ _
    rw [ih]
    by_cases hc : c ∈ acc
    · rw [if_pos hc]
      simp only [List.mem_cons]
      constructor
      · rintro (h | h)
        exacts [Or.inl h, Or.inr (Or.inr h)]
      · rintro (h | h | h)
        exacts [Or.inl h, Or.inl (h ▸ hc), Or.inr h]
    · rw [if_neg hc]
      simp only [List.mem_append, List.mem_singleton, List.mem_cons]
      tauto

theorem nodup_listUnion (acc cols : List String) (h : acc.Nodup) :
    (listUnion acc cols).Nodup := by
  induction cols generalizing acc with
  | nil => exact h
  | cons c t ih =>
    show (listUnion (if c ∈ acc then acc else acc ++ [c]) t).Nodup
    apply ih
    by_cases hc : c ∈ acc
    · rwa [if_pos hc]
    · rw [if_neg hc]
      simp [List.nodup_append, h, hc]

theorem mem_all_pkfrv_aux (dfs : List Frame) (acc : List String) (x : String) :
    x ∈ dfs.foldl (fun acc df => listUnion acc df.cols) acc ↔
      x ∈ acc ∨ ∃ df ∈ dfs, x ∈ df.cols := by
  induction dfs generalizing acc with
  | nil => simp
  | cons df t ih =>
    show x ∈ t.foldl _ (listUnion acc df.cols) ↔ _
    rw [ih, mem_listUnion]
    constructor
    · rintro ((h | h) | ⟨d, hd, hx⟩)
      exacts [Or.inl h, Or.inr ⟨df, List.mem_cons_self _ _, h⟩,
        Or.inr ⟨d, List.mem_cons_of_mem _ hd, hx⟩]
    · rintro (h | ⟨d, hd, hx⟩)
      · exact Or.inl (Or.inl h)
      · rcases List.mem_cons.mp hd with rfl | hd2
        exacts [Or.inl (Or.inr hx), Or.inr ⟨d, hd2, hx⟩]

theorem mem_all_pkfrv (dfs : List Frame) (x : String) :
    x ∈ all_pkfrv_columns dfs ↔ ∃ df ∈ dfs, x ∈ df.cols := by
  have := mem_all_pkfrv_aux dfs [] x
  simpa [all_pkfrv_columns] using this

theorem nodup_all_pkfrv_aux (dfs : List Frame) (acc : List String) (h : acc.Nodup) :
    (dfs.foldl (fun acc df => listUnion acc df.cols) acc).Nodup := by
  induction dfs generalizing acc with
  | nil => exact h
  | cons df t ih =>
    show (t.foldl _ (listUnion acc df.cols)).Nodup
    exact ih _ (nodup_listUnion acc df.cols h)

theorem nodup_all_pkfrv (dfs : List Frame) : (all_pkfrv_columns dfs).Nodup :=
  nodup_all_pkfrv_aux dfs [] List.nodup_nil

theorem lookupCR_not_mem (cols : List String) (r : List Value) (k : String) (h : k ∉ cols) :
    lookupCR cols r k = none := by
  induction cols generalizing r with
  | nil => rfl
  | cons c cs ih =>
    cases r with
    | nil => rfl
    | cons v vs =>
      have hck : ¬ (c = k) := fun he => h (List.mem_cons.mpr (Or.inl he.symm))
      simp only [lookupCR, if_neg hck]
      exact ih vs (fun hm => h (List.mem_cons_of_mem _ hm))

theorem lookupCR_append (cols : List String) (r : List Value) (cols2 : List String)
    (r2 : List Value) (k : String) (h : cols.length = r.length) :
    lookupCR (cols ++ cols2) (r ++ r2) k =
      (lookupCR cols r k).orElse (fun _ => lookupCR cols2 r2 k) := by
  induction cols generalizing r with
  | nil =>
    cases r with
    | nil => rfl
    | cons v vs => simp at h
  | cons c cs ih =>
    cases r with
    | nil => simp at h
    | cons v vs =>
      by_cases hk : c = k
      · simp [lookupCR, hk, Option.orElse]
      · simp only [List.cons_append, lookupCR, if_neg hk]
        exact ih vs (by simpa using h)

theorem lookupCR_isSome (cols : List String) (r : List Value) (k : String)
    (h : cols.length = r.length) (hm : k ∈ cols) : (lookupCR cols r k).isSome = true := by
  induction cols generalizing r with
  | nil => simp at hm
  | cons c cs ih =>
    cases r with
    | nil => simp at h
    | cons v vs =>
      by_cases hk : c = k
      · simp [lookupCR, hk]
      · have : k ∈ cs := by
          rcases List.mem_cons.mp hm with he | ht
          · exact absurd he.symm hk
          · exact ht
        simp only [lookupCR, if_neg hk]
        exact ih vs (by simpa using h) this

theorem fillRow_lookup_mem (s : List String) (cols : List String) (r : List Value)
    (k : String) (h : cols.length = r.length) (hm : k ∈ cols) :
    lookupCR (fillRow cols r s).1 (fillRow cols r s).2 k = lookupCR cols r k := by
  induction s generalizing cols r with
  | nil => rfl
  | cons col t ih =>
    by_cases hc : col ∈ cols
    · simp only [fillRow, if_pos hc]
      exact ih cols r h hm
    · simp only [fillRow, if_neg hc]
      have halign : (cols ++ [col]).length = (r ++ [Value.vInt 0]).length := by simp [h]
      have hm2 : k ∈ cols ++ [col] := List.mem_append.mpr (Or.inl hm)
      rw [ih _ _ halign hm2, lookupCR_append cols r _ _ k h]
      rcases Option.isSome_iff_exists.mp (lookupCR_isSome cols r k h hm) with ⟨v, hv⟩
      rw [hv]
      rfl

theorem fillRow_lookup_new (s : List String) (cols : List String) (r : List Value)
    (k : String) (h : cols.length = r.length) (hnot : k ∉ cols) (hks : k ∈ s) :
    lookupCR (fillRow cols r s).1 (fillRow cols r s).2 k = some (Value.vInt 0) := by
  induction s generalizing cols r with
  | nil => simp at hks
  | cons col t ih =>
    by_cases hc : col ∈ cols
    · simp only [fillRow, if_pos hc]
      have hkt : k ∈ t := by
        rcases List.mem_cons.mp hks with rfl | ht
        · exact absurd hc hnot
        · exact ht
      exact ih cols r h hnot hkt
    · simp only [fillRow, if_neg hc]
      have halign : (cols ++ [col]).length = (r ++ [Value.vInt 0]).length := by simp [h]
      by_cases hk : k = col
      · subst hk
        have hm2 : k ∈ cols ++ [k] := List.mem_append.mpr (Or.inr (List.mem_singleton.mpr rfl))
        rw [fillRow_lookup_mem t _ _ k halign hm2, lookupCR_append cols r _ _ k h,
          lookupCR_not_mem cols r k hnot]
        simp [lookupCR, Option.orElse]
      · have hnot2 : k ∉ cols ++ [col] := by
          simp only [List.mem_append, List.mem_singleton]
          rintro (hl | hr)
          exacts [hnot hl, hk hr]
        have hkt : k ∈ t := by
          rcases List.mem_cons.mp hks with he | ht
          · exact absurd he hk
          · exact ht
        exact ih _ _ halign hnot2 hkt

/-- C1: for every PKFRV ingestion run, the destination table's column
list (`sorted_columns`) is lexicographically sorted, duplicate-free and
equal as a set to the union of the column names of every staged frame;
every loaded row has exactly that many fields, and every column absent
from the row's source frame is filled with the integer `0` — which is
neither null nor a string (in particular not `""`). -/
theorem pkfrv_unified_schema_fill_zero (dfs : List Frame) :
    List.Sorted (fun a b => strLe a b = true) (sorted_columns dfs) ∧
    (sorted_columns dfs).Nodup ∧
    (∀ c, c ∈ sorted_columns dfs ↔ ∃ df ∈ dfs, c ∈ df.cols) ∧
    (∀ df ∈ dfs, ∀ r ∈ df.rows, df.cols.length = r.length →
      (fillAndSelect (sorted_columns dfs) df.cols r).length = (sorted_columns dfs).length ∧
      Value.vInt 0 ≠ Value.vNull ∧ (∀ s, Value.vInt 0 ≠ Value.vStr s) ∧
      ∀ i, ∀ hi : i < (sorted_columns dfs).length,
        (sorted_columns dfs).get ⟨i, hi⟩ ∉ df.cols →
        (fillAndSelect (sorted_columns dfs) df.cols r)[i]? = some (Value.vInt 0)) := by
  refine ⟨List.sorted_insertionSort _ _, ?_, ?_, ?_⟩
  · exact ((List.perm_insertionSort _ _).nodup_iff).mpr (nodup_all_pkfrv dfs)
  · intro c
    exact (List.mem_insertionSort _).trans (mem_all_pkfrv dfs c)
  · intro df hdf r hr halign
    refine ⟨by simp [fillAndSelect], fun h => Value.noConfusion h,
      fun s h => Value.noConfusion h, ?_⟩
    intro i hi hnot
    have hmem : (sorted_columns dfs).get ⟨i, hi⟩ ∈ sorted_columns dfs := List.get_mem _ i hi
    have hfill := fillRow_lookup_new (sorted_columns dfs) df.cols r
      ((sorted_columns dfs).get ⟨i, hi⟩) halign hnot hmem
    simp only [fillAndSelect, List.getElem?_map, List.getElem?_eq_getElem hi]
    simp only [List.get_eq_getElem] at hfill
    simp [hfill]

/-- Two staged PKFRV frames with overlapping column sets, used to witness
`pkfrv_unified_schema_fill_zero`. -/
def pkfrvSample : List Frame :=
  [⟨["B", "A"], [[Value.vStr "b1", Value.vStr "a1"]]⟩,
   ⟨["B", "C"], [[Value.vStr "b2", Value.vStr "c2"]]⟩]

theorem pkfrv_unified_schema_fill_zero_witness :
    (fillAndSelect (sorted_columns pkfrvSample) ["B", "A"]
      [Value.vStr "b1", Value.vStr "a1"])[2]? = some (Value.vInt 0) :=
  ((pkfrv_unified_schema_fill_zero pkfrvSample).2.2.2
    ⟨["B", "A"], [[Value.vStr "b1", Value.vStr "a1"]]⟩ (by decide)
    [Value.vStr "b1", Value.vStr "a1"] (by decide) (by decide)).2.2.2
    2 (by decide) (by decide)

/-! ## Column Presentation Resolver (`get_display_columns` in `app.py`). -/

/-- Substring test on character lists (Python's `in` on `str`). -/
def isInfixOf (needle : List Char) : List Char → Bool
  | [] => needle.isEmpty
  | c :: t => needle.isPrefixOf (c :: t) || isInfixOf needle t

/-- Python `needle in hay` on strings. -/
def containsSub (hay needle : String) : Bool := isInfixOf needle.data hay.data

/-- The literal exclusion set of `get_display_columns`:
`{'unique_id', 'Source_Filepath', 'source_filepath', 'ï»¿'}` (surrogate
key, the path provenance column under both namings, and the mojibake
BOM artifact column). -/
def BASE_EXCLUDE : List String := ["unique_id", "Source_Filepath", "source_filepath", "ï»¿"]

/-- `cols_to_exclude` after `cols_to_exclude.update(unnamed_cols)`. -/
def colsToExclude (all : List String) : List String :=
  BASE_EXCLUDE ++ all.filter (fun c => containsSub (strLower c) "unnamed")

/-- `db_cols_lower = {c.lower(): c for c in all_db_cols}` followed by a
keyed lookup; a later column with the same lowercase form overwrites an
earlier one, hence `getLast?` of the matching columns. -/
def lookupLower (all : List String) (key : String) : Option String :=
  (all.filter (fun c => strLower c = key)).getLast?

/-- One iteration of the fixed-order loop of `get_display_columns`:
append the case-insensitively matched live column unless excluded. -/
def fixedStep (all : List String) (acc : List String) (col : String) : List String :=
  match lookupLower all (strLower col) with
  | some actual => if actual ∈ colsToExclude all then acc else acc ++ [actual]
  | none => acc

/-- `final_ordered_cols` after the fixed-order loop. -/
def fixedPart (all fo : List String) : List String := fo.foldl (fixedStep all) []

/-- `data_cols = [col for col in all_db_cols if col not in cols_to_exclude]`. -/
def dataCols (all : List String) : List String :=
  all.filter (fun c => c ∉ colsToExclude all)

/-- `get_display_columns`: fixed-order columns first, then the remaining
non-excluded columns sorted alphabetically. -/
def get_display_columns (all fo : List String) : List String :=
  fixedPart all fo ++
    List.insertionSort (fun a b => strLe a b = true)
      ((dataCols all).filter (fun c => c ∉ fixedPart all fo))

/-- `fixed_order` for PKFRV in `get_table_config`. -/
def pkfrvFixedOrder : List String :=
  ["Report_Date", "Issue Date", "Maturity Date", "Coupon Frequency"]

/-- `fixed_order` for PKRV in `get_table_config`. -/
def pkrvFixedOrder : List String := ["report_date", "Tenor", "Mid Rate", "Change"]

theorem mem_of_getLast (l : List String) (a : String) (h : l.getLast? = some a) : a ∈ l := by
  induction l with
  | nil => simp at h
  | cons x t ih =>
    cases t with
    | nil =>
      simp only [List.getLast?_singleton, Option.some.injEq] at h
      simp [h]
    | cons y t2 =>
      rw [List.getLast?_cons_cons] at h
      exact List.mem_cons_of_mem _ (ih h)

theorem lookupLower_mem (all : List String) (key a : String)
    (h : lookupLower all key = some a) : a ∈ all :=
  List.mem_of_mem_filter (mem_of_getLast _ a h)

theorem fixedPart_invariant (all : List String) (fo : List String) :
    ∀ acc, (∀ x ∈ acc, x ∈ all ∧ x ∉ colsToExclude all) →
    ∀ x ∈ fo.foldl (fixedStep all) acc, x ∈ all ∧ x ∉ colsToExclude all := by
  induction fo with
  | nil => exact fun acc h => h
  | cons col t ih =>
    intro acc hacc x hx
    refine ih (fixedStep all acc col) ?_ x hx
    intro y hy
    unfold fixedStep at hy
    cases hl : lookupLower all (strLower col) with
    | none => exact hacc y (by rwa [hl] at hy)
    | some actual =>
      rw [hl] at hy
      have hy2 : y ∈ if actual ∈ colsToExclude all then acc else acc ++ [actual] := hy
      by_cases he : actual ∈ colsToExclude all
      · exact hacc y (by rwa [if_pos he] at hy2)
      · rw [if_neg he] at hy2
        rcases List.mem_append.mp hy2 with hy3 | hy3
        · exact hacc y hy3
        · have : y = actual := List.mem_singleton.mp hy3
          subst this
          exact ⟨lookupLower_mem all _ y hl, he⟩

theorem mem_fixedPart (all fo : List String) (x : String) (h : x ∈ fixedPart all fo) :
    x ∈ all ∧ x ∉ colsToExclude all :=
  fixedPart_invariant all fo [] (by simp) x h

/-- C2 (amended): every column the resolver returns is a live table
column outside the exclusion set — in particular it is never the
surrogate key `unique_id`, never the path provenance column
(`Source_Filepath`/`source_filepath`), never the BOM artifact column,
and never contains "unnamed" case-insensitively.  The date provenance
column is NOT excluded (see `display_columns_report_date_cex`): it is
deliberately the first entry of the preferred order. -/
theorem display_columns_exclusions (all fo : List String) (c : String)
    (h : c ∈ get_display_columns all fo) :
    c ∈ all ∧ c ∉ colsToExclude all ∧
    c ≠ "unique_id" ∧ c ≠ "Source_Filepath" ∧ c ≠ "source_filepath" ∧ c ≠ "ï»¿" ∧
    containsSub (strLower c) "unnamed" = false := by
  have hmain : c ∈ all ∧ c ∉ colsToExclude all := by
    rcases List.mem_append.mp h with hf | hs
    · exact mem_fixedPart all fo c hf
    · have h1 := (List.mem_insertionSort _).mp hs
      have h2 := List.mem_filter.mp h1
      have h3 := List.mem_filter.mp h2.1
      exact ⟨h3.1, by simpa using h3.2⟩
  obtain ⟨hall, hexcl⟩ := hmain
  have hbase : c ∉ BASE_EXCLUDE := fun hb => hexcl (List.mem_append.mpr (Or.inl hb))
  refine ⟨hall, hexcl, fun he => hbase (by rw [he]; decide),
    fun he => hbase (by rw [he]; decide), fun he => hbase (by rw [he]; decide),
    fun he => hbase (by rw [he]; decide), ?_⟩
  cases hcs : containsSub (strLower c) "unnamed" with
  | false => rfl
  | true =>
    exact absurd (List.mem_append.mpr (Or.inr (List.mem_filter.mpr ⟨hall, by simp [hcs]⟩)))
      hexcl

/-- C2 counterexample: on a live PKFRV-style column set containing the
date provenance column `Report_Date`, the resolver's output DOES contain
`Report_Date` (it is placed first by the preferred order), refuting the
claim that the date provenance column never appears. -/
theorem display_columns_report_date_cex :
    "Report_Date" ∈ get_display_columns
      ["unique_id", "Report_Date", "Source_Filepath", "Coupon Frequency"] pkfrvFixedOrder := by
  decide

theorem display_columns_exclusions_witness :
    "Tenor" ∈ ["unique_id", "Tenor", "Unnamed: 3"] ∧
    "Tenor" ∉ colsToExclude ["unique_id", "Tenor", "Unnamed: 3"] ∧
    "Tenor" ≠ "unique_id" ∧ "Tenor" ≠ "Source_Filepath" ∧ "Tenor" ≠ "source_filepath" ∧
    "Tenor" ≠ "ï»¿" ∧ containsSub (strLower "Tenor") "unnamed" = false :=
  display_columns_exclusions ["unique_id", "Tenor", "Unnamed: 3"] pkrvFixedOrder "Tenor"
    (by decide)

/-! ## Query Engine counts (`get_report_data_api` in `app.py`): total
rows via `SELECT COUNT(*)`, filtered rows via the same count with a
`LIKE`-per-display-column `WHERE` clause, skipped entirely for an empty
(stripped) search string. -/

/-- Fuelled SQL `LIKE` matcher (`%` any run, `_` any character,
case-insensitive on ASCII as in SQLite).  Every recursive call shrinks
`pattern.length + text.length`, so fuel above that sum is enough. -/
def likeMatchF : Nat → List Char → List Char → Bool
  | 0, _, _ => false
  | _ + 1, [], cs => cs.isEmpty
  | fuel + 1, '%' :: ps, cs =>
    likeMatchF fuel ps cs ||
      (match cs with
       | [] => false
       | _ :: cs2 => likeMatchF fuel ('%' :: ps) cs2)
  | _ + 1, '_' :: _, [] => false
  | fuel + 1, '_' :: ps, _ :: cs2 => likeMatchF fuel ps cs2
  | _ + 1, _ :: _, [] => false
  | fuel + 1, p :: ps, c :: cs2 => (p.toLower = c.toLower) && likeMatchF fuel ps cs2

/-- SQL `LIKE` with always-sufficient fuel. -/
def likeMatch (p cs : List Char) : Bool := likeMatchF (p.length + cs.length + 1) p cs

/-- The pattern `f'%{search_value}%'` built by the query endpoint. -/
def sqlLikePattern (s : String) : List Char := '%' :: s.data ++ ['%']

/-- `CAST("col" AS TEXT) LIKE ?` for one display-column cell. -/
def cellMatches (search cell : String) : Bool := likeMatch (sqlLikePattern search) cell.data

/-- The OR over every display column of the `WHERE` clause, for one row
given as its display-column cells rendered as text. -/
def rowMatchesSearch (search : String) (row : List String) : Bool :=
  row.any (cellMatches search)

/-- `records_total`: `SELECT COUNT(*) FROM table`. -/
def records_total (rows : List (List String)) : Nat := rows.length

/-- `records_filtered`: equal to the total when the stripped search
string is empty (the code never issues the filtered count query then),
otherwise the count of rows matching the OR-of-LIKEs clause. -/
def records_filtered (rows : List (List String)) (rawSearch : String) : Nat :=
  if pyStrip rawSearch = "" then records_total rows
  else (rows.filter (rowMatchesSearch (pyStrip rawSearch))).length

/-- C3: for every query request the filtered row count is at most the
total row count, and an empty search string makes them equal. -/
theorem query_filtered_le_total (rows : List (List String)) (s : String) :
    records_filtered rows s ≤ records_total rows ∧
    (s = "" → records_filtered rows s = records_total rows) := by
  constructor
  · unfold records_filtered
    by_cases h : pyStrip s = ""
    · rw [if_pos h]
    · rw [if_neg h]
      exact List.length_filter_le _ _
  · intro h
    subst h
    have he : pyStrip "" = "" := by decide
    simp [records_filtered, he]

theorem query_filtered_le_total_witness :
    records_filtered [["10.5", "1Y"], ["0.1", "2Y"]] "" ≤
      records_total [["10.5", "1Y"], ["0.1", "2Y"]] ∧
    records_filtered [["10.5", "1Y"], ["0.1", "2Y"]] "" =
      records_total [["10.5", "1Y"], ["0.1", "2Y"]] :=
  ⟨(query_filtered_le_total [["10.5", "1Y"], ["0.1", "2Y"]] "").1,
   (query_filtered_le_total [["10.5", "1Y"], ["0.1", "2Y"]] "").2 rfl⟩

/-! ## Query Engine sort resolution (`get_report_data_api`, lines
137–145 of `app.py`). -/

/-- Python list indexing `l[i]` as a partial operation: nonnegative
indices are positional, negative indices wrap from the end, anything
else raises `IndexError` (modelled as `none`). -/
def pyGet (l : List String) (i : Int) : Option String :=
  if 0 ≤ i then l[i.toNat]?
  else if (-i).toNat ≤ l.length then l[l.length - (-i).toNat]?
  else none

/-- The sort-column resolution of the query endpoint:
`display_cols[idx]` when `idx < len(display_cols)` (Python semantics,
including negative indices and `IndexError`), otherwise
`display_cols[0] if display_cols else None`, then the falsiness check
`if not sort_column: raise ValueError(...)`.  The requested direction is
passed through untouched. -/
def resolveSortColumn (cols : List String) (idx : Int) (dir : String) :
    Except String (String × String) :=
  if idx < (cols.length : Int) then
    match pyGet cols idx with
    | none => Except.error "IndexError"
    | some c =>
      if c = "" then Except.error "No valid columns found to sort by" else Except.ok (c, dir)
  else
    match cols.head? with
    | none => Except.error "No valid columns found to sort by"
    | some c =>
      if c = "" then Except.error "No valid columns found to sort by" else Except.ok (c, dir)

/-- C5 (amended): a sort column index at least the number of resolved
display columns falls back to the first resolved column — with the
requested sort direction, not forced ascending (see
`sort_fallback_direction_cex`) — without error (provided the first
column name is nonempty, since the code treats the empty string as
falsy); with zero resolved columns the request fails with the
`InvalidQuery`-style error. -/
theorem sort_fallback_first_column (cols : List String) (idx : Int) (dir : String)
    (hge : (cols.length : Int) ≤ idx) :
    (cols = [] → resolveSortColumn cols idx dir =
      Except.error "No valid columns found to sort by") ∧
    (∀ c cs, cols = c :: cs → c ≠ "" →
      resolveSortColumn cols idx dir = Except.ok (c, dir)) := by
  have hnl : ¬ idx < (cols.length : Int) := by omega
  constructor
  · intro h
    subst h
    unfold resolveSortColumn
    rw [if_neg (by simpa using hnl)]
    rfl
  · intro c cs h hne
    subst h
    unfold resolveSortColumn
    rw [if_neg hnl]
    simp [hne]

/-- C5 counterexample: sorting by out-of-range index 7 on five display
columns with requested direction `desc` sorts by the first column in
DESCENDING order — the code forwards the requested direction, so the
fallback is not "ascending" as claimed. -/
theorem sort_fallback_direction_cex :
    resolveSortColumn ["A", "B", "C", "D", "E"] 7 "desc" = Except.ok ("A", "desc") ∧
    ("desc" : String) ≠ "asc" := by
  constructor
  · rfl
  · decide

theorem sort_fallback_first_column_witness :
    resolveSortColumn ["A"] 5 "desc" = Except.ok ("A", "desc") ∧
    resolveSortColumn [] 5 "asc" = Except.error "No valid columns found to sort by" :=
  ⟨(sort_fallback_first_column ["A"] 5 "desc" (by decide)).2 "A" [] rfl (by decide),
   (sort_fallback_first_column [] 5 "asc" (by decide)).1 rfl⟩

/-! ## Metadata Cache (`load_metadata_cache` in
`process_financial_data.py`) and the PKRV load branch of `main`. -/

theorem charToNat_ofNat (n : Nat) (h : n < 0xD800) : (Char.ofNat n).toNat = n := by
  have hv : n.isValidChar := Or.inl h
  simp [Char.ofNat, hv, Char.ofNatAux, Char.toNat, UInt32.toNat, BitVec.toNat_ofNatLt]

theorem toUpper_toNat_not_lower (x : Char) :
    ¬ (97 ≤ x.toUpper.toNat ∧ x.toUpper.toNat ≤ 122) := by
  have hdef : x.toUpper =
      if x.toNat ≥ 97 ∧ x.toNat ≤ 122 then Char.ofNat (x.toNat - 32) else x := rfl
  by_cases h : x.toNat ≥ 97 ∧ x.toNat ≤ 122
  · rw [hdef, if_pos h, charToNat_ofNat (x.toNat - 32) (by omega)]
    omega
  · rw [hdef, if_neg h]
    omega

/-- The first character of a title-cased string is never a lowercase
ASCII letter, hence `normCol` can never produce `report_date` or
`source_filepath`; pandas column assignment therefore appends these
provenance columns rather than overwriting an existing one. -/
theorem normCol_head_not_lower (s : String) (c : Char) (cs : List Char)
    (h : (normCol s).data = c :: cs) : ¬ (97 ≤ c.toNat ∧ c.toNat ≤ 122) := by
  unfold normCol pyTitle at h
  cases hl : (pyStrip s).data with
  | nil => rw [hl] at h; simp [pyTitleAux] at h
  | cons x xs =>
    rw [hl] at h
    simp only [pyTitleAux, Bool.false_eq_true, if_false, List.cons.injEq] at h
    cases ha : asciiAlpha x with
    | true =>
      rw [ha] at h
      simp only [if_true] at h
      rw [← h.1]
      exact toUpper_toNat_not_lower x
    | false =>
      rw [ha] at h
      simp only [Bool.false_eq_true, if_false] at h
      rw [← h.1]
      simp only [asciiAlpha, Bool.or_eq_false_iff, Bool.and_eq_false_iff] at ha
      intro hc
      rcases ha with ⟨_, h2⟩
      rcases h2 with h2 | h2 <;> simp at h2 <;> omega

theorem normCol_ne_report_date (s : String) : normCol s ≠ "report_date" := by
  intro h
  have hd : (normCol s).data = 'r' :: "eport_date".data := by rw [h]
  exact normCol_head_not_lower s 'r' _ hd (by decide)

theorem normCol_ne_source_filepath (s : String) : normCol s ≠ "source_filepath" := by
  intro h
  have hd : (normCol s).data = 's' :: "ource_filepath".data := by rw [h]
  exact normCol_head_not_lower s 's' _ hd (by decide)

/-- `os.path.basename` for POSIX paths: what follows the last slash. -/
def basename (p : String) : String :=
  String.mk ((p.data.reverse.takeWhile (fun c => c ≠ '/')).reverse)

/-- A provenance record: `{'date': ..., 'title': ...}`. -/
structure Meta where
  date : String
  title : String
deriving DecidableEq, Repr

/-- Python dict assignment `cache[key] = v`: any previous binding of the
key is replaced (lookup and size semantics of a dict; the original
insertion position of an overwritten key is not tracked). -/
def dictInsert (cache : List (String × Meta)) (k : String) (v : Meta) :
    List (String × Meta) :=
  cache.filter (fun p => p.1 != k) ++ [(k, v)]

/-- `load_metadata_cache`: an absent store yields the empty cache (a
non-fatal warning); otherwise every `(filepath, date, title)` row with a
truthy filepath is stored under `os.path.basename(filepath)`, later rows
overwriting earlier ones. -/
def load_metadata_cache (dbExists : Bool)
    (storeRows : List (String × String × String)) : List (String × Meta) :=
  if dbExists then
    storeRows.foldl
      (fun cache r =>
        if r.1 ≠ "" then dictInsert cache (basename r.1) ⟨r.2.1, r.2.2⟩ else cache)
      []
  else []

/-- `metadata_cache.get(filename, {'date': 'N/A', 'title': 'N/A'})`. -/
def cacheGet (cache : List (String × Meta)) (filename : String) : Meta :=
  match cache.find? (fun p => p.1 == filename) with
  | some p => p.2
  | none => ⟨"N/A", "N/A"⟩

theorem find?_filter_append (t : List (String × Meta)) (k : String) (v : Meta) :
    List.find? (fun p => p.1 == k) (t.filter (fun p => p.1 != k) ++ [(k, v)]) =
      some (k, v) := by
  induction t with
  | nil => simp [List.find?]
  | cons a t ih =>
    by_cases ha : a.1 = k
    · simp only [List.filter_cons, ha, bne_self_eq_false, Bool.false_eq_true, if_false]
      exact ih
    · have hb : (a.1 != k) = true := bne_iff_ne.mpr ha
      simp only [List.filter_cons, hb, if_true, List.cons_append, List.find?]
      rw [show (a.1 == k) = false from beq_eq_false_iff_ne.mpr ha]
      exact ih

theorem cacheGet_dictInsert (cache : List (String × Meta)) (k : String) (v : Meta) :
    cacheGet (dictInsert cache k v) k = v := by
  unfold cacheGet dictInsert
  rw [find?_filter_append]

theorem load_append_one (rows : List (String × String × String)) (fp d t : String)
    (h : fp ≠ "") :
    load_metadata_cache true (rows ++ [(fp, d, t)]) =
      dictInsert (load_metadata_cache true rows) (basename fp) ⟨d, t⟩ := by
  simp [load_metadata_cache, List.foldl_append, h]

/-- C10: the Metadata Cache is keyed by the basename of the stored
filepath; when two store rows share a basename, the cache maps that
basename to the later-read row's record (last write wins) and holds one
entry, not one per distinct filepath. -/
theorem metadata_cache_last_write_wins (rows : List (String × String × String))
    (fp1 d1 t1 fp2 d2 t2 : String) (h1 : fp1 ≠ "") (h2 : fp2 ≠ "")
    (hb : basename fp1 = basename fp2) :
    cacheGet (load_metadata_cache true (rows ++ [(fp1, d1, t1), (fp2, d2, t2)]))
      (basename fp1) = ⟨d2, t2⟩ ∧
    (load_metadata_cache true [(fp1, d1, t1), (fp2, d2, t2)]).length = 1 := by
  constructor
  · have e : rows ++ [(fp1, d1, t1), (fp2, d2, t2)] =
        (rows ++ [(fp1, d1, t1)]) ++ [(fp2, d2, t2)] := by simp
    rw [e, load_append_one _ _ _ _ h2, hb, cacheGet_dictInsert]
  · have e2 : [(fp1, d1, t1), (fp2, d2, t2)] =
        ([] ++ [(fp1, d1, t1)]) ++ [(fp2, d2, t2)] := by simp
    rw [e2, load_append_one _ _ _ _ h2, load_append_one _ _ _ _ h1, hb]
    simp [load_metadata_cache, dictInsert]

theorem metadata_cache_last_write_wins_witness :
    cacheGet (load_metadata_cache true
        ([] ++ [("PKRV/x.csv", "2024-01-01", "T1"), ("archive/x.csv", "2024-02-02", "T2")]))
      (basename "PKRV/x.csv") = ⟨"2024-02-02", "T2"⟩ ∧
    (load_metadata_cache true
        [("PKRV/x.csv", "2024-01-01", "T1"), ("archive/x.csv", "2024-02-02", "T2")]).length
      = 1 :=
  metadata_cache_last_write_wins [] "PKRV/x.csv" "2024-01-01" "T1"
    "archive/x.csv" "2024-02-02" "T2" (by decide) (by decide) (by decide)

/-- The fixed PKRV load column list
`['Tenor', 'Mid Rate', 'Change', 'report_date', 'source_filepath']`. -/
def PKRV_LOAD_COLS : List String :=
  ["Tenor", "Mid Rate", "Change", "report_date", "source_filepath"]

/-- The PKRV branch of `main` on a successfully re-read frame:
standardize the column names (`str(c).strip().title()`), append the
`report_date` and `source_filepath` provenance columns (appending is
exact because a title-cased name is never lowercase `report_date` or
`source_filepath`, see `normCol_head_not_lower`), then select
`PKRV_LOAD_COLS`; if a load column is missing, the `df[[...]]` selection
raises and the load fails (`none`), contributing no rows. -/
def processPkrvFrame (meta : Meta) (filepath : String) (df : Frame) : Option Frame :=
  if subSet PKRV_LOAD_COLS (df.cols.map normCol ++ ["report_date", "source_filepath"]) then
    some ⟨PKRV_LOAD_COLS,
      (df.rows.map (fun r => r ++ [Value.vStr meta.date, Value.vStr filepath])).map
        (fun r2 => PKRV_LOAD_COLS.map
          (fun c => (lookupCR (df.cols.map normCol ++ ["report_date", "source_filepath"])
            r2 c).getD Value.vNull))⟩
  else none

/-- C7: a file whose name has no Metadata Cache entry (in particular
when the store is absent and the cache empty) is still processed: the
lookup returns the `("N/A", "N/A")` sentinel and every loaded record
carries the string `N/A` in its `report_date` field (position 3 of the
load columns). -/
theorem cache_miss_na_provenance (cache : List (String × Meta))
    (filename filepath : String) (df : Frame)
    (hmiss : cache.find? (fun p => p.1 == filename) = none)
    (halign : ∀ r ∈ df.rows, df.cols.length = r.length)
    (hsel : subSet PKRV_LOAD_COLS
      (df.cols.map normCol ++ ["report_date", "source_filepath"])) :
    cacheGet cache filename = ⟨"N/A", "N/A"⟩ ∧
    ∃ out, processPkrvFrame (cacheGet cache filename) filepath df = some out ∧
      ∀ row ∈ out.rows, row.getD 3 Value.vNull = Value.vStr "N/A" := by
  have hget : cacheGet cache filename = ⟨"N/A", "N/A"⟩ := by
    simp [cacheGet, hmiss]
  refine ⟨hget, ?_⟩
  rw [hget]
  unfold processPkrvFrame
  rw [if_pos hsel]
  refine ⟨_, rfl, ?_⟩
  intro row hrow
  rcases List.mem_map.mp hrow with ⟨r2, hr2, rfl⟩
  rcases List.mem_map.mp hr2 with ⟨r, hr, rfl⟩
  have hlen : (df.cols.map normCol).length = r.length := by
    rw [List.length_map]
    exact halign r hr
  have hnotm : "report_date" ∉ df.cols.map normCol := by
    intro hm
    rcases List.mem_map.mp hm with ⟨a, _, ha⟩
    exact normCol_ne_report_date a ha
  have hlook : lookupCR (df.cols.map normCol ++ ["report_date", "source_filepath"])
      (r ++ [Value.vStr "N/A", Value.vStr filepath]) "report_date"
      = some (Value.vStr "N/A") := by
    rw [lookupCR_append _ _ _ _ _ hlen, lookupCR_not_mem _ _ _ hnotm]
    simp [lookupCR, Option.orElse]
  have h3 : PKRV_LOAD_COLS[3]? = some "report_date" := rfl
  simp only [List.getD_eq_getElem?_getD, List.getElem?_map, h3]
  simp [hlook]

/-- A re-read PKRV frame used to witness `cache_miss_na_provenance`. -/
def pkrvMissFrame : Frame :=
  ⟨["Tenor", "Mid Rate", "Change"], [[Value.vStr "1Y", Value.vInt 10, Value.vInt 0]]⟩

theorem cache_miss_na_provenance_witness :
    cacheGet [("other.csv", ⟨"2024-01-01", "T"⟩)] "x.csv" = ⟨"N/A", "N/A"⟩ ∧
    ∃ out, processPkrvFrame (cacheGet [("other.csv", ⟨"2024-01-01", "T"⟩)] "x.csv")
        "PKRV/x.csv" pkrvMissFrame = some out ∧
      ∀ row ∈ out.rows, row.getD 3 Value.vNull = Value.vStr "N/A" :=
  cache_miss_na_provenance [("other.csv", ⟨"2024-01-01", "T"⟩)] "x.csv" "PKRV/x.csv"
    pkrvMissFrame (by decide) (by decide) (by decide)

/-- `Path(p).suffix`: the extension of the basename, empty when there is
no dot, the last dot is the leading character, or the name ends with the
dot. -/
def pathSuffix (p : String) : String :=
  let b := (basename p).data
  let after := (b.reverse.takeWhile (fun c => c ≠ '.')).reverse
  if after.length = b.length then ""
  else if after.length = 0 then ""
  else if b.length - after.length - 1 = 0 then ""
  else String.mk ('.' :: after)

/-- `Path(filepath).suffix.lower()`. -/
def pathSuffixLower (p : String) : String := strLower (pathSuffix p)

/-- The per-file contribution of `main` to the `tenor_rates` table
(lines 160–180): only PKRV-classified `.csv` files whose full read and
load succeed contribute rows; a PKRV file with any other extension is
skipped outright (`continue`). -/
def pkrvFileRows (cache : List (String × Meta)) (filepath : String)
    (headerResult : Option (Nat × FormatId)) (fullRead : Option Frame) :
    List (List Value) :=
  match headerResult with
  | some (_, FormatId.PKRV) =>
    if pathSuffixLower filepath ≠ ".csv" then []
    else
      match fullRead with
      | none => []
      | some df =>
        match processPkrvFrame (cacheGet cache (basename filepath)) filepath df with
        | some out => out.rows
        | none => []
  | _ => []

/-- C9: a file classified as PKRV whose extension is not `.csv` is
skipped entirely — it contributes no rows to `tenor_rates`, whatever its
content would have loaded. -/
theorem pkrv_non_csv_skipped (cache : List (String × Meta)) (filepath : String) (i : Nat)
    (fullRead : Option Frame) (h : pathSuffixLower filepath ≠ ".csv") :
    pkrvFileRows cache filepath (some (i, FormatId.PKRV)) fullRead = [] := by
  simp [pkrvFileRows, h]

theorem pkrv_non_csv_skipped_witness :
    pkrvFileRows [] "PKRV/rates.xlsx" (some (2, FormatId.PKRV))
      (some ⟨["Tenor", "Mid Rate", "Change"], [[Value.vStr "1Y", Value.vInt 10, Value.vInt 0]]⟩)
      = [] :=
  pkrv_non_csv_skipped [] "PKRV/rates.xlsx" 2
    (some ⟨["Tenor", "Mid Rate", "Change"], [[Value.vStr "1Y", Value.vInt 10, Value.vInt 0]]⟩)
    (by decide)

/-! ## Download surface (`download_file` in `app.py` and
`viewer_app.py`). -/

/-- `os.path.join(base, p)` for POSIX paths: an absolute `p` discards
the base entirely. -/
def osPathJoin (base p : String) : String :=
  if p.data.head? = some '/' then p
  else if base = "" then p
  else if base.data.getLast? = some '/' then base ++ p
  else base ++ "/" ++ p

/-- `FILES_BASE_DIRECTORY` from both viewer apps. -/
def FILES_BASE_DIRECTORY : String := "."

/-- Drop leading `./` segments, as the operating system does when
resolving a relative path against the working directory. -/
def stripDotSlash : List Char → List Char
  | '.' :: '/' :: rest => stripDotSlash rest
  | l => l

/-- Path normalization used to model `os.path.exists`. -/
def normPath (p : String) : String := String.mk (stripDotSlash p.data)

/-- `download_file`: join the requested path onto the configured base
directory; serve the file's bytes if the joined path exists, else a 404
NotFound.  The filesystem is a list of (path, bytes) pairs. -/
def download_file (fs : List (String × String)) (filepath : String) : Option String :=
  match fs.find? (fun e => normPath e.1 == normPath (osPathJoin FILES_BASE_DIRECTORY filepath)) with
  | some e => some e.2
  | none => none

/-- The spec's "resolves to an existing file under the configured root",
formalized: a relative path (no leading slash) with no parent-directory
segment. -/
def underRoot (p : String) : Prop :=
  p.data.head? ≠ some '/' ∧ ".." ∉ (splitWith '/' p.data).map String.mk

instance (p : String) : Decidable (underRoot p) := by
  unfold underRoot; infer_instance

/-- C8 (code bug): the download endpoint joins the raw request path, so
an absolute path that exists outside the configured root is served with
its bytes instead of producing the NotFound condition required by the
claim — the classic path-traversal slip (the code's own comment calls
the joined path "safe"). -/
theorem download_serves_outside_root :
    download_file [("/etc/passwd", "SECRETBYTES")] "/etc/passwd" = some "SECRETBYTES" ∧
    ¬ underRoot "/etc/passwd" := by
  constructor
  · rfl
  · decide

end Mufap
